import Mathlib

/-!
# File server (`file-server/main.go`): path containment, dispatch and listing

A shallow embedding of the request handler of the file server.

* Go strings are lists of characters (`Str`).  Every library routine used by
  the handler inspects only the ASCII characters `/` and `.`, so the embedding
  does not depend on how the remaining bytes are grouped into characters.
* The routines of Go's `strings` and `path/filepath` packages (Unix build) that
  the handler calls are embedded one path element at a time: `Clean` walks the
  elements between separators exactly as the library's loop does, keeping the
  output buffer and the `dotdot` mark.
* The operating system is a record of oracles (`Env`): `Getwd`, `UserHomeDir`,
  `Stat` and `ReadDir`.
* The response writer is the value returned by the handler (`Response`); the
  page of a listing is the sequence of its `Fprintf` calls with their
  arguments (`Chunk`), and the call of `http.ServeFile` is a response of its
  own; `ServeHTTP` adds the guard with which `http.ServeFile` begins.
* `float64` values are exact dyadic numbers (`Float64`); the conversion from
  an integer rounds to 53 bits, the verb `%.2f` rounds the exact value to
  hundredths, ties to even.
-/

namespace FileServer

/-- Go `string`. -/
abbrev Str := List Char

/-! ## Package `strings` -/

namespace strings

/-- Go `strings.HasPrefix(s, pfx)`:
`len(s) >= len(pfx) && s[:len(pfx)] == pfx`. -/
def HasPrefix (s pfx : Str) : Bool :=
  decide (s.length ≥ pfx.length) && (s.take pfx.length == pfx)

/-- Go `strings.Join(elems, sep)`. -/
def Join : List Str → Str → Str
  | [], _ => []
  | [e], _ => e
  | e :: es, sep => e ++ sep ++ Join es sep

/-- Go `strings.Split(s, "/")`: the maximal runs between separators
(always at least one element). -/
def SplitSep : Str → List Str
  | [] => [[]]
  | c :: cs =>
    if c = '/' then [] :: SplitSep cs
    else
      match SplitSep cs with
      | [] => [[c]]
      | s :: ss => (c :: s) :: ss

/-- Go `strings.Count(s, "/")`. -/
def CountSep (s : Str) : Nat := s.count '/'

end strings

/-! ## Package `path/filepath` (Unix) -/

namespace filepath

/-- The output buffer of `Clean`: the path elements written so far (the
separators between them are implicit) and the mark below which a `..`
element must not remove anything (counted in elements). -/
structure lazybuf where
  elems : List Str
  dotdot : Nat
deriving DecidableEq, Repr

/-- One round of the loop of `Clean`, for the path element `e`. -/
def cleanStep (rooted : Bool) (out : lazybuf) (e : Str) : lazybuf :=
  if e = [] then out
  else if e = ['.'] then out
  else if e = ['.', '.'] then
    if out.elems.length > out.dotdot then
      ⟨out.elems.dropLast, out.dotdot⟩
    else if !rooted then
      ⟨out.elems ++ [e], out.elems.length + 1⟩
    else out
  else ⟨out.elems ++ [e], out.dotdot⟩

/-- The contents of the buffer as a string; an empty result becomes `.`. -/
def lazybuf.string (rooted : Bool) (out : lazybuf) : Str :=
  let s := (if rooted then ['/'] else []) ++ strings.Join out.elems ['/']
  if s = [] then ['.'] else s

/-- Go `filepath.Clean(path)`. -/
def Clean (path : Str) : Str :=
  let rooted := path.head? == some '/'
  lazybuf.string rooted ((strings.SplitSep path).foldl (cleanStep rooted) ⟨[], 0⟩)

/-- Go `filepath.Join(elem...)`: the elements from the first non-empty one on,
joined by separators and cleaned; the empty string if all are empty. -/
def Join : List Str → Str
  | [] => []
  | e :: es => if e ≠ [] then Clean (strings.Join (e :: es) ['/']) else Join es

/-- Go `filepath.IsAbs(path)`. -/
def IsAbs (path : Str) : Bool := strings.HasPrefix path ['/']

/-- Go `filepath.Abs(path)`, given the result of `os.Getwd()`
(`none` when it fails). -/
def Abs (getwd : Option Str) (path : Str) : Option Str :=
  if IsAbs path then some (Clean path)
  else
    match getwd with
    | none => none
    | some wd => some (Join [wd, path])

/-- Go `filepath.HasPrefix(p, pfx)` (deprecated): on Unix it is
`strings.HasPrefix(p, pfx)`. -/
def HasPrefix (p pfx : Str) : Bool := strings.HasPrefix p pfx

/-- Go `filepath.Dir(path)`: everything up to and including the last
separator, cleaned. -/
def Dir (path : Str) : Str :=
  Clean (path.reverse.dropWhile (fun c => c ≠ '/')).reverse

/-- The loop of `Rel` that positions both paths at their first differing
elements.  `rb` and `rt` are `base[b0:]` and `targ[t0:]`; the result is
`(base[b0:bi], base[b0:], targ[t0:])` on leaving the loop.  Every round removes
at least one character of `rb`, so `fuel = len(base)` rounds suffice. -/
def relLoop : Nat → Str → Str → Str × Str × Str
  | 0, rb, rt => ([], rb, rt)
  | fuel + 1, rb, rt =>
    if rb = [] ∨ rt = [] then ([], rb, rt)
    else
      let be := rb.takeWhile (fun c => c ≠ '/')
      let te := rt.takeWhile (fun c => c ≠ '/')
      if te ≠ be then (be, rb, rt)
      else relLoop fuel (rb.dropWhile (fun c => c ≠ '/')).tail
        (rt.dropWhile (fun c => c ≠ '/')).tail

/-- Go `filepath.Rel(basepath, targpath)`; `none` is the error result. -/
def Rel (basepath targpath : Str) : Option Str :=
  let base := Clean basepath
  let targ := Clean targpath
  if targ = base then some ['.']
  else
    let base := if base = ['.'] then [] else base
    let baseSlashed := base.head? == some '/'
    let targSlashed := targ.head? == some '/'
    if baseSlashed != targSlashed then none
    else
      match relLoop base.length base targ with
      | (cur, rb, rt) =>
        if cur = ['.', '.'] then none
        else if rb ≠ [] then
          some (['.', '.']
            ++ (List.replicate (strings.CountSep rb) ['/', '.', '.']).flatten
            ++ (if rt ≠ [] then '/' :: rt else []))
        else some rt

end filepath

/-! ## Package `fmt` and the numeric conversions -/

/-- The verb `%d` for an `int64`. -/
def fmtInt (i : Int) : Str :=
  if i < 0 then '-' :: Nat.toDigits 10 i.natAbs else Nat.toDigits 10 i.toNat

/-- A decimal numeral padded with zeros on the left to `width` digits. -/
def zeroPad (width n : Nat) : Str :=
  let ds := Nat.toDigits 10 n
  List.replicate (width - ds.length) '0' ++ ds

/-- A finite non-negative IEEE-754 binary64 number, `mant * 2 ^ exp`. -/
structure Float64 where
  mant : Nat
  exp : Int
deriving DecidableEq, Repr

/-- The quotient `num / den` rounded to the nearest integer, ties to even. -/
def roundHalfEven (num den : Nat) : Nat :=
  let q := num / den
  let r := num % den
  if 2 * r > den ∨ (2 * r = den ∧ q % 2 = 1) then q + 1 else q

/-- The conversion `float64(n)` of a non-negative integer: exact below `2^53`,
otherwise rounded to 53 significant bits, ties to even. -/
def Float64.ofNat (n : Nat) : Float64 :=
  if n < 2 ^ 53 then ⟨n, 0⟩
  else
    let k := Nat.log2 n - 52
    ⟨roundHalfEven n (2 ^ k), k⟩

/-- Division of a binary64 number by the constant `2^j`: the quotient is
representable (no underflow for the exponents that occur), hence exact. -/
def Float64.divPow2 (x : Float64) (j : Nat) : Float64 := ⟨x.mant, x.exp - j⟩

/-- The value of `x` in hundredths as `strconv` rounds it for the verb `%.2f`:
the exact decimal expansion cut after two places, rounded up when the rest is
above one half, or exactly one half and the last kept digit is odd. -/
def Float64.hundredths (x : Float64) : Nat :=
  match x.exp with
  | Int.ofNat e => x.mant * 2 ^ e * 100
  | Int.negSucc e => roundHalfEven (x.mant * 100) (2 ^ (e + 1))

/-- A number of hundredths written with two decimal places. -/
def fixed2 (h : Nat) : Str :=
  Nat.toDigits 10 (h / 100) ++ '.' :: zeroPad 2 (h % 100)

/-- The verb `%.2f` for a non-negative `float64`. -/
def fmtF2 (x : Float64) : Str := fixed2 x.hundredths

/-! ## The operating system -/

/-- The result of `os.Stat`. -/
inductive StatResult where
  | info (isDir : Bool)
  | errNotExist
  | errOther
deriving DecidableEq, Repr

/-- A `time.Time`, broken down into its calendar fields. -/
structure Time where
  year : Nat
  month : Nat
  day : Nat
  hour : Nat
  minute : Nat
  second : Nat
deriving DecidableEq, Repr

/-- Go `t.Format("2006-01-02 15:04:05")`. -/
def Time.Format (t : Time) : Str :=
  zeroPad 4 t.year ++ '-' :: zeroPad 2 t.month ++ '-' :: zeroPad 2 t.day ++ ' ' ::
    zeroPad 2 t.hour ++ ':' :: zeroPad 2 t.minute ++ ':' :: zeroPad 2 t.second

/-- An `fs.FileInfo`: the fields the listing reads. -/
structure FileInfo where
  size : Int
  modTime : Time
deriving DecidableEq, Repr

/-- An `fs.DirEntry`; `info` is `none` when `Info()` returns an error. -/
structure DirEntry where
  name : Str
  isDir : Bool
  info : Option FileInfo
deriving DecidableEq, Repr

/-- The operating system as seen by one request. -/
structure Env where
  /-- `os.Getwd()`, `none` on error. -/
  getwd : Option Str
  /-- `os.UserHomeDir()`, `none` on error. -/
  userHomeDir : Option Str
  /-- `os.Stat(path)`. -/
  stat : Str → StatResult
  /-- `os.ReadDir(path)`, `none` on error. -/
  readDir : Str → Option (List DirEntry)

/-! ## The response writer -/

/-- One `fmt.Fprintf(w, ...)` of the listing page, with its arguments. -/
inductive Chunk where
  /-- The page head: title (the request path) and the displayed directory. -/
  | header (title displayPath : Str)
  /-- The parent-directory row and its link. -/
  | parentRow (href : Str)
  /-- The row of one directory entry: link, folder icon, name, size, time. -/
  | entryRow (link : Str) (dirIcon : Bool) (name size modTime : Str)
  /-- The closing tags. -/
  | footer
deriving DecidableEq, Repr

/-- What the handler does with the response writer. -/
inductive Response where
  /-- `http.Error(w, msg, code)`. -/
  | error (msg : String) (code : Nat)
  /-- A page written with status 200 and content type `text/html`. -/
  | page (body : List Chunk)
  /-- `http.ServeFile(w, r, path)`. -/
  | serveFile (path : Str)
deriving DecidableEq, Repr

def StatusBadRequest : Nat := 400
def StatusForbidden : Nat := 403
def StatusNotFound : Nat := 404
def StatusInternalServerError : Nat := 500

/-! ## `file-server/main.go` -/

/-- Check if a path is within the base directory. -/
def isPathInDir (env : Env) (path baseDir : Str) : Bool :=
  match filepath.Abs env.getwd baseDir with
  | none => false
  | some baseAbs =>
    match filepath.Abs env.getwd path with
    | none => false
    | some pathAbs => filepath.HasPrefix pathAbs baseAbs

/-- Format file size in a human-readable way. -/
def formatFileSize (size : Int) : Str :=
  if size < 1024 then
    fmtInt size ++ " B".toList
  else if size < 1024 * 1024 then
    fmtF2 ((Float64.ofNat size.toNat).divPow2 10) ++ " KB".toList
  else if size < 1024 * 1024 * 1024 then
    fmtF2 ((Float64.ofNat size.toNat).divPow2 20) ++ " MB".toList
  else
    fmtF2 ((Float64.ofNat size.toNat).divPow2 30) ++ " GB".toList

/-- Get path relative to home directory. -/
def getRelativePath (env : Env) (path : Str) : Str :=
  match env.userHomeDir with
  | none => path
  | some homeDir =>
    match filepath.Abs env.getwd path with
    | none => path
    | some absPath =>
      if strings.HasPrefix absPath homeDir then
        match filepath.Rel homeDir absPath with
        | none => absPath
        | some relPath =>
          if relPath = ['.'] then "~/".toList else "~/".toList ++ relPath
      else absPath

/-- The body of the loop over the directory entries: `w` is what has been
written so far. -/
def listEntry (urlPath : Str) (w : List Chunk) (file : DirEntry) : List Chunk :=
  match file.info with
  | none => w
  | some info =>
    let size := if !file.isDir then formatFileSize info.size else ['-']
    let modTime := info.modTime.Format
    let link := filepath.Join [urlPath, file.name]
    let name := if file.isDir then file.name ++ ['/'] else file.name
    w ++ [Chunk.entryRow link file.isDir name size modTime]

/-- Serve a styled directory listing; `urlPath` is `r.URL.Path`.  As in the
source, `baseDir` is received and not used. -/
def serveDirectoryListing (env : Env) (urlPath path _baseDir : Str) : Response :=
  match env.readDir path with
  | none => .error "Unable to read directory" StatusInternalServerError
  | some files =>
    let displayPath := getRelativePath env path
    let w := [Chunk.header urlPath displayPath]
    let w := if urlPath ≠ ['/'] then w ++ [Chunk.parentRow (filepath.Dir urlPath)] else w
    let w := files.foldl (listEntry urlPath) w
    .page (w ++ [Chunk.footer])

/-- The handler returned by `fileServerWithUI(dir)`, applied to a request
whose `r.URL.Path` is `urlPath`. -/
def fileServerWithUI (env : Env) (dir urlPath : Str) : Response :=
  let path := filepath.Join [dir, urlPath]
  match filepath.Abs env.getwd path with
  | none => .error "Invalid path" StatusBadRequest
  | some path =>
    if !isPathInDir env path dir then
      .error "Access denied: Path outside directory" StatusForbidden
    else
      match env.stat path with
      | .errNotExist => .error "Not found" StatusNotFound
      | .errOther => .error "Server error" StatusInternalServerError
      | .info isDir =>
        if isDir then serveDirectoryListing env urlPath path dir
        else .serveFile path

/-! ## Package `net/http`: the hand-over to `ServeFile` -/

namespace strings

/-- Go `strings.Contains(s, sub)`. -/
def Contains : Str → Str → Bool
  | [], sub => HasPrefix [] sub
  | c :: cs, sub => HasPrefix (c :: cs) sub || Contains cs sub

/-- Go `strings.FieldsFunc(s, f)`, before the empty fields are dropped: the
runs between the characters that satisfy `f`. -/
def splitFunc (f : Char → Bool) : Str → List Str
  | [] => [[]]
  | c :: cs =>
    if f c then [] :: splitFunc f cs
    else
      match splitFunc f cs with
      | [] => [[c]]
      | s :: ss => (c :: s) :: ss

/-- Go `strings.FieldsFunc(s, f)`: the non-empty runs between the characters
that satisfy `f`. -/
def FieldsFunc (s : Str) (f : Char → Bool) : List Str :=
  (splitFunc f s).filter (fun ent => ent ≠ [])

end strings

namespace http

/-- Go `isSlashRune`. -/
def isSlashRune (r : Char) : Bool := r == '/' || r == '\\'

/-- Go `containsDotDot(v)` of `net/http`: some field of `v` between slashes or
backslashes is `..`. -/
def containsDotDot (v : Str) : Bool :=
  if !strings.Contains v ['.', '.'] then false
  else (strings.FieldsFunc v isSlashRune).any (fun ent => ent == ['.', '.'])

/-- Go `http.ServeFile(w, r, name)`, up to its guard: a request path with a
`..` element is refused with 400 `invalid URL path`; otherwise the library
goes on to serve `name`, which the result records (what the library writes
from there on is not part of the embedding). -/
def ServeFile (urlPath name : Str) : Response :=
  if containsDotDot urlPath then .error "invalid URL path" StatusBadRequest
  else .serveFile name

end http

/-- The response to a request whose `r.URL.Path` is `urlPath`: what the handler
writes itself, and for a file what `http.ServeFile` makes of the hand-over. -/
def ServeHTTP (env : Env) (dir urlPath : Str) : Response :=
  match fileServerWithUI env dir urlPath with
  | .serveFile name => http.ServeFile urlPath name
  | r => r

/-! ## Auxiliary definitions for the proofs -/

/-- An ordinary path element: non-empty, without separator, neither `.` nor
`..`. -/
def IsName (e : Str) : Prop := e ≠ [] ∧ e ≠ ['.'] ∧ e ≠ ['.', '.'] ∧ '/' ∉ e

instance : DecidablePred IsName := fun e => by unfold IsName; infer_instance

/-- The effect of one path element on the buffer of a rooted path. -/
def push (o : List Str) (e : Str) : List Str :=
  if e = [] ∨ e = ['.'] then o
  else if e = ['.', '.'] then o.dropLast
  else o ++ [e]

/-- The buffer of a rooted path after the elements `es`, starting from `o`. -/
def walk (o es : List Str) : List Str := es.foldl push o

/-- The containment the handler is meant to enforce: `path` is `root` itself or
lies beneath `root` on a path-element boundary. -/
def isWithin (path root : Str) : Bool :=
  path == root ||
    strings.HasPrefix path (if root.getLast? = some '/' then root else root ++ ['/'])

/-- A modification time used in the sample file system. -/
def sampleTime : Time := ⟨2024, 3, 7, 9, 5, 0⟩

/-- The file system of the scenario: root `/srv/data` holds the file
`notes.txt` (120 bytes) and the directory `img`; beside the root lies
`/srv/data-evil` with the file `x`. -/
def sampleEnv : Env where
  getwd := some "/srv/data".toList
  userHomeDir := some "/home/u".toList
  stat := fun p =>
    if p = "/srv/data".toList ∨ p = "/srv/data/img".toList
      ∨ p = "/srv/data-evil".toList then .info true
    else if p = "/srv/data/notes.txt".toList ∨ p = "/srv/data-evil/x".toList then .info false
    else .errNotExist
  readDir := fun p =>
    if p = "/srv/data".toList then
      some [⟨"img".toList, true, some ⟨4096, sampleTime⟩⟩,
        ⟨"notes.txt".toList, false, some ⟨120, sampleTime⟩⟩]
    else if p = "/srv/data/img".toList then some []
    else if p = "/srv/data-evil".toList then
      some [⟨"x".toList, false, some ⟨7, sampleTime⟩⟩]
    else none

/-- The row the listing shows for a directory entry: the link is the request
path joined with the entry name; a directory shows its name with a trailing
`/` and the size `-`, a file shows its formatted size. -/
def RowShows (urlPath : Str) (file : DirEntry) (row : Chunk) : Prop :=
  ∃ info, file.info = some info ∧
    row = .entryRow (filepath.Join [urlPath, file.name]) file.isDir
      (if file.isDir then file.name ++ ['/'] else file.name)
      (if file.isDir then ['-'] else formatFileSize info.size)
      info.modTime.Format

/-- The row written by the loop body for an entry, if any. -/
def entryRow? (urlPath : Str) (file : DirEntry) : Option Chunk :=
  file.info.map (fun info =>
    .entryRow (filepath.Join [urlPath, file.name]) file.isDir
      (if file.isDir then file.name ++ ['/'] else file.name)
      (if file.isDir then ['-'] else formatFileSize info.size)
      info.modTime.Format)

/-- The links of the parent-directory rows of a page. -/
def Response.parentLinks : Response → List Str
  | .page body => body.filterMap (fun c =>
      match c with
      | .parentRow href => some href
      | _ => none)
  | _ => []

/-- The number of hundredths `h` is the exact quotient `q` rounded to two
decimal places: nearest hundredth, ties to even. -/
def NearestHundredth (q : ℚ) (h : ℕ) : Prop :=
  |(h : ℚ) - 100 * q| ≤ 1 / 2 ∧ (|(h : ℚ) - 100 * q| = 1 / 2 → h % 2 = 0)

/-- No `..` element of `es` climbs above the starting point: `d` counts the
ordinary elements still available to be removed. -/
def noClimb : Nat → List Str → Bool
  | _, [] => true
  | d, e :: es =>
    if e = [] ∨ e = ['.'] then noClimb d es
    else if e = ['.', '.'] then decide (d ≠ 0) && noClimb (d - 1) es
    else noClimb (d + 1) es

/-- The shape of the buffer of `Clean`: `dotdot` elements `..` followed by
ordinary elements. -/
def BufInv (st : filepath.lazybuf) : Prop :=
  ∃ names : List Str, (∀ x ∈ names, IsName x)
    ∧ st.elems = List.replicate st.dotdot ['.', '.'] ++ names

/-! ## Lemmas on `strings` -/

namespace strings

theorem HasPrefix_iff (s p : Str) : HasPrefix s p = true ↔ p <+: s := by
  unfold HasPrefix
  rw [List.prefix_iff_eq_take]
  constructor
  · intro h
    simp only [Bool.and_eq_true, decide_eq_true_eq, beq_iff_eq] at h
    exact h.2.symm
  · intro h
    simp only [Bool.and_eq_true, decide_eq_true_eq, beq_iff_eq]
    refine ⟨?_, h.symm⟩
    have := congrArg List.length h
    simp only [List.length_take] at this
    omega

theorem SplitSep_ne_nil (s : Str) : SplitSep s ≠ [] := by
  cases s with
  | nil => simp [SplitSep]
  | cons c cs =>
    unfold SplitSep
    split_ifs
    · simp
    · split <;> simp

theorem SplitSep_cons_sep (cs : Str) : SplitSep ('/' :: cs) = [] :: SplitSep cs := by
  simp [SplitSep]

theorem SplitSep_noSep (s : Str) (h : '/' ∉ s) : SplitSep s = [s] := by
  induction s with
  | nil => rfl
  | cons c cs ih =>
    have hc : c ≠ '/' := fun e => h (by simp [e])
    have hcs : '/' ∉ cs := fun e => h (by simp [e])
    unfold SplitSep
    rw [if_neg hc, ih hcs]

theorem SplitSep_append_sep (a b : Str) :
    SplitSep (a ++ '/' :: b) = SplitSep a ++ SplitSep b := by
  induction a with
  | nil => simp [SplitSep]
  | cons c cs ih =>
    by_cases hc : c = '/'
    · simp [SplitSep, hc, ih]
    · have h1 : SplitSep (c :: cs ++ '/' :: b) =
          (match SplitSep (cs ++ '/' :: b) with
            | [] => [[c]]
            | s :: ss => (c :: s) :: ss) := by
        show SplitSep (c :: (cs ++ '/' :: b)) = _
        rw [SplitSep, if_neg hc]
      have h2 : SplitSep (c :: cs) =
          (match SplitSep cs with
            | [] => [[c]]
            | s :: ss => (c :: s) :: ss) := by
        rw [SplitSep, if_neg hc]
      rw [h1, h2, ih]
      cases h : SplitSep cs with
      | nil => exact absurd h (SplitSep_ne_nil cs)
      | cons s ss => simp

theorem noSep_of_mem_SplitSep (s e : Str) (h : e ∈ SplitSep s) : '/' ∉ e := by
  induction s generalizing e with
  | nil => simp [SplitSep] at h; simp [h]
  | cons c cs ih =>
    by_cases hc : c = '/'
    · rw [SplitSep, if_pos hc] at h
      rcases List.mem_cons.1 h with h | h
      · simp [h]
      · exact ih e h
    · rw [SplitSep, if_neg hc] at h
      cases hs : SplitSep cs with
      | nil => exact absurd hs (SplitSep_ne_nil cs)
      | cons s ss =>
        rw [hs] at h
        simp only [List.mem_cons] at h
        rcases h with h | h
        · subst h
          have := ih s (by simp [hs])
          simp only [List.mem_cons, not_or]
          exact ⟨fun e => hc e.symm, this⟩
        · exact ih e (by simp [hs, h])

theorem Join_cons_cons (e e2 : Str) (es : List Str) (sep : Str) :
    Join (e :: e2 :: es) sep = e ++ sep ++ Join (e2 :: es) sep := rfl

theorem Join_pair (a b sep : Str) : Join [a, b] sep = a ++ sep ++ b := rfl

theorem Join_concat (es : List Str) (e sep : Str) (h : es ≠ []) :
    Join (es ++ [e]) sep = Join es sep ++ sep ++ e := by
  induction es with
  | nil => exact absurd rfl h
  | cons a as ih =>
    cases as with
    | nil => rfl
    | cons b bs =>
      have := ih (by simp)
      simp only [List.cons_append, Join_cons_cons] at this ⊢
      rw [this]
      simp [List.append_assoc]

theorem SplitSep_Join (es : List Str) (hne : es ≠ []) (h : ∀ e ∈ es, '/' ∉ e) :
    SplitSep (Join es ['/']) = es := by
  induction es with
  | nil => exact absurd rfl hne
  | cons a as ih =>
    cases as with
    | nil => exact SplitSep_noSep a (h a (by simp))
    | cons b bs =>
      rw [Join_cons_cons]
      have : a ++ ['/'] ++ Join (b :: bs) ['/'] = a ++ '/' :: Join (b :: bs) ['/'] := by simp
      rw [this, SplitSep_append_sep, SplitSep_noSep a (h a (by simp)),
        ih (by simp) (fun e he => h e (by simp [he]))]
      rfl

end strings

/-! ## Lemmas on `filepath.Clean` for rooted paths -/

namespace filepath

theorem cleanStep_rooted (o : List Str) (e : Str) :
    cleanStep true ⟨o, 0⟩ e = ⟨push o e, 0⟩ := by
  unfold cleanStep push
  by_cases h1 : e = []
  · simp [h1]
  by_cases h2 : e = ['.']
  · simp [h2]
  by_cases h3 : e = ['.', '.']
  · cases o with
    | nil => simp [h3]
    | cons a as => simp [h3]
  · simp [h1, h2, h3]

theorem foldl_cleanStep_rooted (es : List Str) (o : List Str) :
    es.foldl (cleanStep true) ⟨o, 0⟩ = ⟨walk o es, 0⟩ := by
  induction es generalizing o with
  | nil => rfl
  | cons e es ih =>
    simp only [List.foldl_cons, cleanStep_rooted, ih]
    rfl

theorem walk_append (o a b : List Str) : walk o (a ++ b) = walk (walk o a) b := by
  simp [walk, List.foldl_append]

theorem walk_cons (o : List Str) (e : Str) (es : List Str) :
    walk o (e :: es) = walk (push o e) es := rfl

theorem walk_nil (o : List Str) : walk o [] = o := rfl

theorem push_name (o : List Str) (e : Str) (h : IsName e) : push o e = o ++ [e] := by
  obtain ⟨h1, h2, h3, _⟩ := h
  simp [push, h1, h2, h3]

theorem walk_names (es o : List Str) (h : ∀ e ∈ es, IsName e) : walk o es = o ++ es := by
  induction es generalizing o with
  | nil => simp [walk]
  | cons e es ih =>
    rw [walk_cons, push_name o e (h e (by simp)), ih _ (fun x hx => h x (by simp [hx]))]
    simp

theorem push_isName (o : List Str) (e : Str) (ho : ∀ x ∈ o, IsName x) (he : '/' ∉ e) :
    ∀ x ∈ push o e, IsName x := by
  unfold push
  split_ifs with h1 h2
  · exact ho
  · exact fun x hx => ho x (List.mem_of_mem_dropLast hx)
  · intro x hx
    rcases List.mem_append.1 hx with hx | hx
    · exact ho x hx
    · simp only [List.mem_singleton] at hx
      subst hx
      simp only [not_or] at h1
      exact ⟨h1.1, h1.2, h2, he⟩

theorem walk_isName (es o : List Str) (ho : ∀ x ∈ o, IsName x) (hes : ∀ e ∈ es, '/' ∉ e) :
    ∀ x ∈ walk o es, IsName x := by
  induction es generalizing o with
  | nil => exact ho
  | cons e es ih =>
    rw [walk_cons]
    exact ih _ (push_isName o e ho (hes e (by simp))) (fun x hx => hes x (by simp [hx]))

theorem walk_SplitSep_isName (path : Str) : ∀ x ∈ walk [] (strings.SplitSep path), IsName x :=
  walk_isName _ [] (by simp) (fun e he => strings.noSep_of_mem_SplitSep path e he)

/-- Without a `..` element the buffer only grows. -/
theorem walk_prefix_of_noDotDot (es o : List Str) (h : ['.', '.'] ∉ es) :
    o <+: walk o es := by
  induction es generalizing o with
  | nil => exact List.prefix_refl o
  | cons e es ih =>
    rw [walk_cons]
    have he : e ≠ ['.', '.'] := fun x => h (by simp [x])
    have hes : ['.', '.'] ∉ es := fun x => h (by simp [x])
    refine List.IsPrefix.trans ?_ (ih (push o e) hes)
    unfold push
    split_ifs
    · exact List.prefix_refl o
    · exact List.prefix_append o [e]

theorem Clean_of_rooted (path : Str) (h : path.head? = some '/') :
    Clean path = '/' :: strings.Join (walk [] (strings.SplitSep path)) ['/'] := by
  unfold Clean
  simp only [h, beq_self_eq_true, foldl_cleanStep_rooted, lazybuf.string]
  simp

/-- The cleaned form of a rooted path: a separator followed by ordinary
elements joined by separators. -/
theorem Clean_rooted_form (ns : List Str) (h : ∀ e ∈ ns, IsName e) :
    Clean ('/' :: strings.Join ns ['/']) = '/' :: strings.Join ns ['/'] := by
  rw [Clean_of_rooted ('/' :: strings.Join ns ['/']) rfl, strings.SplitSep_cons_sep, walk_cons]
  have hp : push [] [] = [] := rfl
  rw [hp]
  cases ns with
  | nil => rfl
  | cons a as =>
    rw [strings.SplitSep_Join _ (by simp) (fun e he => (h e he).2.2.2), walk_names _ _ h]
    rfl

theorem Clean_idem_of_rooted (path : Str) (h : path.head? = some '/') :
    Clean (Clean path) = Clean path := by
  rw [Clean_of_rooted path h]
  exact Clean_rooted_form _ (walk_SplitSep_isName path)

theorem head_Clean_of_rooted (path : Str) (h : path.head? = some '/') :
    (Clean path).head? = some '/' := by
  rw [Clean_of_rooted path h]; rfl

theorem IsAbs_iff (path : Str) : IsAbs path = true ↔ path.head? = some '/' := by
  unfold IsAbs
  rw [strings.HasPrefix_iff]
  cases path with
  | nil => simp
  | cons c cs => simp [List.cons_prefix_cons, eq_comm]

theorem Abs_of_rooted (getwd : Option Str) (path : Str) (h : path.head? = some '/') :
    Abs getwd path = some (Clean path) := by
  unfold Abs
  rw [if_pos ((IsAbs_iff path).2 h)]

end filepath

/-! ## The library routines on the examples of their documentation -/

/-- The embedding of `Clean` agrees with the library on its documented rules:
separators are merged, `.` is dropped, an inner `..` removes the element before
it, a `..` at the root is dropped, a leading `..` of a relative path is kept,
and the empty path becomes `.`. -/
theorem Clean_examples :
    filepath.Clean "".toList = ".".toList
    ∧ filepath.Clean "abc//def//ghi".toList = "abc/def/ghi".toList
    ∧ filepath.Clean "//abc//".toList = "/abc".toList
    ∧ filepath.Clean "abc/./def".toList = "abc/def".toList
    ∧ filepath.Clean "abc/def/../ghi/../jkl".toList = "abc/jkl".toList
    ∧ filepath.Clean "abc/def/../..".toList = ".".toList
    ∧ filepath.Clean "/abc/def/../../..".toList = "/".toList
    ∧ filepath.Clean "abc/def/../../../ghi/jkl/../../../mno".toList = "../../mno".toList
    ∧ filepath.Clean "/../abc".toList = "/abc".toList
    ∧ filepath.Clean "abc/../../././../def".toList = "../../def".toList
    ∧ filepath.Clean "../../abc".toList = "../../abc".toList := by
  decide

/-- The embeddings of `Join`, `Dir` and `Rel` on examples of the library's
documentation. -/
theorem Join_Dir_Rel_examples :
    filepath.Join ["a".toList, "b".toList] = "a/b".toList
    ∧ filepath.Join ["a".toList, "".toList] = "a".toList
    ∧ filepath.Join ["".toList, "b".toList] = "b".toList
    ∧ filepath.Join ["".toList, "".toList] = "".toList
    ∧ filepath.Join ["a/".toList, "/b".toList] = "a/b".toList
    ∧ filepath.Join ["a".toList, "../../xyz".toList] = "../xyz".toList
    ∧ filepath.Dir "/foo/bar/baz.js".toList = "/foo/bar".toList
    ∧ filepath.Dir "/foo/bar/baz/".toList = "/foo/bar/baz".toList
    ∧ filepath.Dir "dev.txt".toList = ".".toList
    ∧ filepath.Dir "".toList = ".".toList
    ∧ filepath.Dir "/".toList = "/".toList
    ∧ filepath.Rel "/a".toList "/a/b/c".toList = some "b/c".toList
    ∧ filepath.Rel "/a".toList "/b/c".toList = some "../b/c".toList
    ∧ filepath.Rel "/a".toList "./b/c".toList = none
    ∧ filepath.Rel "/a/b".toList "/a/b".toList = some ".".toList
    ∧ filepath.Rel "/a/b/c/d".toList "/a/b".toList = some "../..".toList := by
  decide

/-! ## The handler -/

theorem isPathInDir_of_rooted (env : Env) (path baseDir : Str)
    (hp : path.head? = some '/') (hb : baseDir.head? = some '/') :
    isPathInDir env path baseDir
      = filepath.HasPrefix (filepath.Clean path) (filepath.Clean baseDir) := by
  unfold isPathInDir
  rw [filepath.Abs_of_rooted _ _ hp, filepath.Abs_of_rooted _ _ hb]

theorem fileServerWithUI_of_resolved (env : Env) (dir urlPath path : Str)
    (hres : filepath.Abs env.getwd (filepath.Join [dir, urlPath]) = some path) :
    fileServerWithUI env dir urlPath =
      if !isPathInDir env path dir then
        .error "Access denied: Path outside directory" StatusForbidden
      else
        match env.stat path with
        | .errNotExist => .error "Not found" StatusNotFound
        | .errOther => .error "Server error" StatusInternalServerError
        | .info isDir =>
          if isDir then serveDirectoryListing env urlPath path dir
          else .serveFile path := by
  unfold fileServerWithUI
  simp only [hres]

theorem Join_of_rooted (dir urlPath : Str) (h : dir.head? = some '/') :
    filepath.Join [dir, urlPath] = filepath.Clean (dir ++ '/' :: urlPath) := by
  have hne : dir ≠ [] := by rintro rfl; simp at h
  unfold filepath.Join
  rw [if_pos hne, strings.Join_pair]
  simp

theorem head_append_of_rooted (dir rest : Str) (h : dir.head? = some '/') :
    (dir ++ rest).head? = some '/' := by
  cases dir with
  | nil => simp at h
  | cons c cs => simpa using h

/-- Under an absolute root the request path always resolves, to the cleaned
join of root and request path. -/
theorem resolve_of_rooted (env : Env) (dir urlPath : Str) (h : dir.head? = some '/') :
    filepath.Abs env.getwd (filepath.Join [dir, urlPath])
      = some (filepath.Clean (dir ++ '/' :: urlPath)) := by
  rw [Join_of_rooted dir urlPath h,
    filepath.Abs_of_rooted _ _ (filepath.head_Clean_of_rooted _ (head_append_of_rooted _ _ h)),
    filepath.Clean_idem_of_rooted _ (head_append_of_rooted _ _ h)]

theorem isPathInDir_resolved (env : Env) (dir urlPath : Str) (h : dir.head? = some '/') :
    isPathInDir env (filepath.Clean (dir ++ '/' :: urlPath)) dir
      = strings.HasPrefix (filepath.Clean (dir ++ '/' :: urlPath)) (filepath.Clean dir) := by
  rw [isPathInDir_of_rooted env _ _
    (filepath.head_Clean_of_rooted _ (head_append_of_rooted _ _ h)) h,
    filepath.Clean_idem_of_rooted _ (head_append_of_rooted _ _ h)]
  rfl

theorem prefix_of_isWithin (path root : Str) (h : isWithin path root = true) :
    root <+: path := by
  unfold isWithin at h
  simp only [Bool.or_eq_true, beq_iff_eq] at h
  rcases h with h | h
  · rw [h]
  · rw [strings.HasPrefix_iff] at h
    split_ifs at h
    · exact h
    · exact (List.prefix_append root ['/']).trans h

theorem serveDirectoryListing_cases (env : Env) (urlPath path baseDir : Str) :
    serveDirectoryListing env urlPath path baseDir
        = .error "Unable to read directory" StatusInternalServerError
      ∨ ∃ body, serveDirectoryListing env urlPath path baseDir = .page body := by
  unfold serveDirectoryListing
  cases env.readDir path with
  | none => exact Or.inl rfl
  | some files => exact Or.inr ⟨_, rfl⟩

theorem Join_prefix_append (a b : List Str) (sep : Str) :
    strings.Join a sep <+: strings.Join (a ++ b) sep := by
  induction a with
  | nil => exact List.nil_prefix
  | cons x xs ih =>
    cases xs with
    | nil =>
      cases b with
      | nil => exact List.prefix_refl _
      | cons y ys =>
        show x <+: x ++ sep ++ strings.Join (y :: ys) sep
        rw [List.append_assoc]
        exact List.prefix_append _ _
    | cons y ys =>
      show x ++ sep ++ strings.Join (y :: ys) sep
        <+: x ++ sep ++ strings.Join (y :: ys ++ b) sep
      exact (List.prefix_append_right_inj _).2 ih

/-- The three outcomes that follow a successful containment check. -/
theorem response_of_contained (env : Env) (dir urlPath path : Str)
    (hres : filepath.Abs env.getwd (filepath.Join [dir, urlPath]) = some path)
    (hin : isPathInDir env path dir = true) :
    fileServerWithUI env dir urlPath = .error "Not found" StatusNotFound
      ∨ fileServerWithUI env dir urlPath = .error "Server error" StatusInternalServerError
      ∨ fileServerWithUI env dir urlPath
          = .error "Unable to read directory" StatusInternalServerError
      ∨ (∃ body, fileServerWithUI env dir urlPath = .page body)
      ∨ fileServerWithUI env dir urlPath = .serveFile path := by
  rw [fileServerWithUI_of_resolved env dir urlPath path hres, hin]
  simp only [Bool.not_true, Bool.false_eq_true, if_false]
  cases env.stat path with
  | errNotExist => exact Or.inl rfl
  | errOther => exact Or.inr (Or.inl rfl)
  | info isDir =>
    cases isDir with
    | false => exact Or.inr (Or.inr (Or.inr (Or.inr rfl)))
    | true =>
      rcases serveDirectoryListing_cases env urlPath path dir with h | h
      · exact Or.inr (Or.inr (Or.inl (by simpa using h)))
      · exact Or.inr (Or.inr (Or.inr (Or.inl (by simpa using h))))

theorem not_forbidden_of_contained (env : Env) (dir urlPath path : Str)
    (hres : filepath.Abs env.getwd (filepath.Join [dir, urlPath]) = some path)
    (hin : isPathInDir env path dir = true) (msg : String) :
    fileServerWithUI env dir urlPath ≠ .error msg StatusForbidden := by
  rcases response_of_contained env dir urlPath path hres hin with h | h | h | ⟨b, h⟩ | h <;>
    rw [h] <;> simp [StatusForbidden, StatusNotFound, StatusInternalServerError]

/-- A request path without `..` element resolves beneath the cleaned root. -/
theorem contained_of_noDotDot (env : Env) (dir urlPath : Str) (h : dir.head? = some '/')
    (hp : ['.', '.'] ∉ strings.SplitSep urlPath) :
    isPathInDir env (filepath.Clean (dir ++ '/' :: urlPath)) dir = true := by
  rw [isPathInDir_resolved env dir urlPath h, strings.HasPrefix_iff,
    filepath.Clean_of_rooted _ (head_append_of_rooted _ _ h), filepath.Clean_of_rooted _ h,
    strings.SplitSep_append_sep, filepath.walk_append]
  obtain ⟨xs, hxs⟩ := filepath.walk_prefix_of_noDotDot (strings.SplitSep urlPath)
    (walk [] (strings.SplitSep dir)) hp
  rw [← hxs, List.cons_prefix_cons]
  exact ⟨rfl, Join_prefix_append _ _ _⟩

/-! ## The claims -/

/-- C1 (defect of the code). The containment check compares raw strings: with
root `/srv/data` the request path `/../data-evil/x` resolves to the sibling
`/srv/data-evil/x`, which is neither the root nor beneath it on an element
boundary, yet `isPathInDir` accepts it and the handler goes on to `os.Stat`
and serves the entry instead of answering 403. -/
theorem C1_sibling_passes_containment (env : Env) :
    filepath.Join ["/srv/data".toList, "/../data-evil/x".toList] = "/srv/data-evil/x".toList
    ∧ isWithin "/srv/data-evil/x".toList (filepath.Clean "/srv/data".toList) = false
    ∧ isPathInDir env "/srv/data-evil/x".toList "/srv/data".toList = true
    ∧ fileServerWithUI env "/srv/data".toList "/../data-evil/x".toList
        = (match env.stat "/srv/data-evil/x".toList with
          | .errNotExist => .error "Not found" StatusNotFound
          | .errOther => .error "Server error" StatusInternalServerError
          | .info isDir =>
            if isDir then
              serveDirectoryListing env "/../data-evil/x".toList "/srv/data-evil/x".toList
                "/srv/data".toList
            else .serveFile "/srv/data-evil/x".toList)
    ∧ fileServerWithUI sampleEnv "/srv/data".toList "/../data-evil/x".toList
        = .serveFile "/srv/data-evil/x".toList := by
  have hj : filepath.Join ["/srv/data".toList, "/../data-evil/x".toList]
      = "/srv/data-evil/x".toList := by decide
  have hin : isPathInDir env "/srv/data-evil/x".toList "/srv/data".toList = true := by
    rw [isPathInDir_of_rooted env "/srv/data-evil/x".toList "/srv/data".toList rfl rfl]
    decide
  have hres : filepath.Abs env.getwd
      (filepath.Join ["/srv/data".toList, "/../data-evil/x".toList])
      = some "/srv/data-evil/x".toList := by
    rw [hj, filepath.Abs_of_rooted env.getwd "/srv/data-evil/x".toList rfl]
    decide
  refine ⟨hj, by decide, hin, ?_, by decide⟩
  rw [fileServerWithUI_of_resolved env _ _ _ hres, hin]
  rfl

/-- C9. For an absolute root and a request path without `..` element the
resolved path passes `isPathInDir`, so the handler never answers 403. -/
theorem C9_no_false_rejection (env : Env) (dir urlPath : Str)
    (hdir : filepath.IsAbs dir = true) (hp : ['.', '.'] ∉ strings.SplitSep urlPath) :
    ∃ path, filepath.Abs env.getwd (filepath.Join [dir, urlPath]) = some path
      ∧ isPathInDir env path dir = true
      ∧ ∀ msg, fileServerWithUI env dir urlPath ≠ .error msg StatusForbidden := by
  have h := (filepath.IsAbs_iff dir).1 hdir
  exact ⟨_, resolve_of_rooted env dir urlPath h, contained_of_noDotDot env dir urlPath h hp,
    not_forbidden_of_contained env dir urlPath _ (resolve_of_rooted env dir urlPath h)
      (contained_of_noDotDot env dir urlPath h hp)⟩

theorem C9_no_false_rejection_witness :
    ∃ path, filepath.Abs sampleEnv.getwd
        (filepath.Join ["/srv/data".toList, "/img//./notes.txt".toList]) = some path
      ∧ isPathInDir sampleEnv path "/srv/data".toList = true
      ∧ ∀ msg, fileServerWithUI sampleEnv "/srv/data".toList "/img//./notes.txt".toList
          ≠ .error msg StatusForbidden :=
  C9_no_false_rejection sampleEnv "/srv/data".toList "/img//./notes.txt".toList
    (by decide) (by decide)

/-- The outcomes of the handler for an absolute root. -/
theorem handler_outcomes (env : Env) (dir urlPath : Str) (h : dir.head? = some '/') :
    fileServerWithUI env dir urlPath
        = .error "Access denied: Path outside directory" StatusForbidden
      ∨ fileServerWithUI env dir urlPath = .error "Not found" StatusNotFound
      ∨ fileServerWithUI env dir urlPath = .error "Server error" StatusInternalServerError
      ∨ fileServerWithUI env dir urlPath
          = .error "Unable to read directory" StatusInternalServerError
      ∨ (∃ body, fileServerWithUI env dir urlPath = .page body)
      ∨ fileServerWithUI env dir urlPath
          = .serveFile (filepath.Clean (dir ++ '/' :: urlPath)) := by
  have hres := resolve_of_rooted env dir urlPath h
  cases hin : isPathInDir env (filepath.Clean (dir ++ '/' :: urlPath)) dir with
  | false =>
    left
    rw [fileServerWithUI_of_resolved env dir urlPath _ hres, hin]
    rfl
  | true => exact Or.inr (response_of_contained env dir urlPath _ hres hin)

/-- C10, as stated, fails. With the absolute root `/srv/data` the request path
`/img/../notes.txt` resolves to the existing file `/srv/data/notes.txt`; the
handler hands it to `http.ServeFile`, which refuses a request path with a `..`
element, and the response is 400. -/
theorem C10_ServeFile_answers_400 :
    filepath.IsAbs "/srv/data".toList = true
    ∧ filepath.Abs sampleEnv.getwd
        (filepath.Join ["/srv/data".toList, "/img/../notes.txt".toList])
        = some "/srv/data/notes.txt".toList
    ∧ fileServerWithUI sampleEnv "/srv/data".toList "/img/../notes.txt".toList
        = .serveFile "/srv/data/notes.txt".toList
    ∧ http.containsDotDot "/img/../notes.txt".toList = true
    ∧ ServeHTTP sampleEnv "/srv/data".toList "/img/../notes.txt".toList
        = .error "invalid URL path" StatusBadRequest
    ∧ ¬ (∀ msg, ServeHTTP sampleEnv "/srv/data".toList "/img/../notes.txt".toList
        ≠ .error msg StatusBadRequest) := by
  refine ⟨by decide, by decide, by decide, by decide, by decide, fun h => ?_⟩
  exact h "invalid URL path" (by decide)

/-- C10, amended. When the configured root is absolute, resolving the request
path cannot fail, so the handler never takes its own 400 `Invalid path`
branch: it answers 403, 404 or 500, writes a directory listing, or hands the
resolved path to `http.ServeFile`. The response to the request is 400 exactly
when that hand-over takes place and the request path has a `..` element,
which `http.ServeFile` refuses with `invalid URL path`; for a request path
without such an element the response is never 400. -/
theorem C10_bad_request_only_from_ServeFile (env : Env) (dir urlPath : Str)
    (hdir : filepath.IsAbs dir = true) :
    ∃ path, filepath.Abs env.getwd (filepath.Join [dir, urlPath]) = some path
      ∧ (∀ msg, fileServerWithUI env dir urlPath ≠ .error msg StatusBadRequest)
      ∧ (fileServerWithUI env dir urlPath
            = .error "Access denied: Path outside directory" StatusForbidden
        ∨ fileServerWithUI env dir urlPath = .error "Not found" StatusNotFound
        ∨ fileServerWithUI env dir urlPath = .error "Server error" StatusInternalServerError
        ∨ fileServerWithUI env dir urlPath
            = .error "Unable to read directory" StatusInternalServerError
        ∨ (∃ body, fileServerWithUI env dir urlPath = .page body)
        ∨ fileServerWithUI env dir urlPath = .serveFile path)
      ∧ (∀ msg, ServeHTTP env dir urlPath = .error msg StatusBadRequest ↔
          (msg = "invalid URL path"
            ∧ fileServerWithUI env dir urlPath = .serveFile path
            ∧ http.containsDotDot urlPath = true))
      ∧ (http.containsDotDot urlPath = false →
          ServeHTTP env dir urlPath = fileServerWithUI env dir urlPath
          ∧ ∀ msg, ServeHTTP env dir urlPath ≠ .error msg StatusBadRequest) := by
  have h := (filepath.IsAbs_iff dir).1 hdir
  have hres := resolve_of_rooted env dir urlPath h
  have key := handler_outcomes env dir urlPath h
  have hown : ∀ msg, fileServerWithUI env dir urlPath ≠ .error msg StatusBadRequest := by
    intro msg
    rcases key with h | h | h | h | ⟨b, h⟩ | h <;>
      rw [h] <;>
      simp [StatusForbidden, StatusNotFound, StatusInternalServerError, StatusBadRequest]
  have hiff : ∀ msg, ServeHTTP env dir urlPath = .error msg StatusBadRequest ↔
      (msg = "invalid URL path"
        ∧ fileServerWithUI env dir urlPath
            = .serveFile (filepath.Clean (dir ++ '/' :: urlPath))
        ∧ http.containsDotDot urlPath = true) := by
    intro msg
    unfold ServeHTTP
    rcases key with h | h | h | h | ⟨b, h⟩ | h <;> rw [h]
    · simp [StatusForbidden, StatusBadRequest]
    · simp [StatusNotFound, StatusBadRequest]
    · simp [StatusInternalServerError, StatusBadRequest]
    · simp [StatusInternalServerError, StatusBadRequest]
    · simp
    · cases hc : http.containsDotDot urlPath with
      | false => simp [http.ServeFile, hc]
      | true =>
        simp only [http.ServeFile, hc, if_true, Response.error.injEq, and_true, true_and]
        exact eq_comm
  refine ⟨_, hres, hown, key, hiff, fun hc => ?_⟩
  have heq : ServeHTTP env dir urlPath = fileServerWithUI env dir urlPath := by
    unfold ServeHTTP
    rcases key with h | h | h | h | ⟨b, h⟩ | h <;> rw [h]
    simp [http.ServeFile, hc]
  refine ⟨heq, fun msg => ?_⟩
  rw [heq]
  exact hown msg

theorem C10_bad_request_only_from_ServeFile_witness :
    ∃ path, filepath.Abs sampleEnv.getwd
        (filepath.Join ["/srv/data".toList, "/notes.txt".toList]) = some path
      ∧ (∀ msg, fileServerWithUI sampleEnv "/srv/data".toList "/notes.txt".toList
          ≠ .error msg StatusBadRequest)
      ∧ (fileServerWithUI sampleEnv "/srv/data".toList "/notes.txt".toList
            = .error "Access denied: Path outside directory" StatusForbidden
        ∨ fileServerWithUI sampleEnv "/srv/data".toList "/notes.txt".toList
            = .error "Not found" StatusNotFound
        ∨ fileServerWithUI sampleEnv "/srv/data".toList "/notes.txt".toList
            = .error "Server error" StatusInternalServerError
        ∨ fileServerWithUI sampleEnv "/srv/data".toList "/notes.txt".toList
            = .error "Unable to read directory" StatusInternalServerError
        ∨ (∃ body, fileServerWithUI sampleEnv "/srv/data".toList "/notes.txt".toList
            = .page body)
        ∨ fileServerWithUI sampleEnv "/srv/data".toList "/notes.txt".toList
            = .serveFile path)
      ∧ (∀ msg, ServeHTTP sampleEnv "/srv/data".toList "/notes.txt".toList
            = .error msg StatusBadRequest ↔
          (msg = "invalid URL path"
            ∧ fileServerWithUI sampleEnv "/srv/data".toList "/notes.txt".toList
                = .serveFile path
            ∧ http.containsDotDot "/notes.txt".toList = true))
      ∧ (http.containsDotDot "/notes.txt".toList = false →
          ServeHTTP sampleEnv "/srv/data".toList "/notes.txt".toList
            = fileServerWithUI sampleEnv "/srv/data".toList "/notes.txt".toList
          ∧ ∀ msg, ServeHTTP sampleEnv "/srv/data".toList "/notes.txt".toList
              ≠ .error msg StatusBadRequest) :=
  C10_bad_request_only_from_ServeFile sampleEnv "/srv/data".toList "/notes.txt".toList
    (by decide)

/-- C2. Once the request path is resolved, the handler decides in a fixed
order: 403 when the containment check fails; otherwise 404 when `os.Stat`
reports that the entry does not exist; otherwise 500 when `os.Stat` fails in
another way; otherwise it hands a directory to `serveDirectoryListing` (which
writes the listing page when the directory can be read) and serves a file.
Hence a path that resolves within an absolute root and does not exist yields
404; with root `/srv/data`, `/../../etc/passwd` yields 403 and a missing
`/missing.txt` yields 404. -/
theorem C2_dispatch_order (env : Env) (dir urlPath path : Str)
    (hres : filepath.Abs env.getwd (filepath.Join [dir, urlPath]) = some path) :
    (isPathInDir env path dir = false →
      fileServerWithUI env dir urlPath
        = .error "Access denied: Path outside directory" StatusForbidden)
    ∧ (isPathInDir env path dir = true → env.stat path = .errNotExist →
      fileServerWithUI env dir urlPath = .error "Not found" StatusNotFound)
    ∧ (isPathInDir env path dir = true → env.stat path = .errOther →
      fileServerWithUI env dir urlPath = .error "Server error" StatusInternalServerError)
    ∧ (isPathInDir env path dir = true → env.stat path = .info true →
      fileServerWithUI env dir urlPath = serveDirectoryListing env urlPath path dir
      ∧ ∀ files, env.readDir path = some files →
          ∃ body, fileServerWithUI env dir urlPath = .page body)
    ∧ (isPathInDir env path dir = true → env.stat path = .info false →
      fileServerWithUI env dir urlPath = .serveFile path)
    ∧ (filepath.IsAbs dir = true → isWithin path (filepath.Clean dir) = true →
      env.stat path = .errNotExist →
      fileServerWithUI env dir urlPath = .error "Not found" StatusNotFound)
    ∧ fileServerWithUI env "/srv/data".toList "/../../etc/passwd".toList
        = .error "Access denied: Path outside directory" StatusForbidden
    ∧ (env.stat "/srv/data/missing.txt".toList = .errNotExist →
      fileServerWithUI env "/srv/data".toList "/missing.txt".toList
        = .error "Not found" StatusNotFound) := by
  have hE := fileServerWithUI_of_resolved env dir urlPath path hres
  refine ⟨?_, ?_, ?_, ?_, ?_, ?_, ?_, ?_⟩
  · intro hin
    rw [hE, hin]; rfl
  · intro hin hst
    rw [hE, hin, hst]; rfl
  · intro hin hst
    rw [hE, hin, hst]; rfl
  · intro hin hst
    have h1 : fileServerWithUI env dir urlPath = serveDirectoryListing env urlPath path dir := by
      rw [hE, hin, hst]; rfl
    refine ⟨h1, fun files hf => ?_⟩
    rw [h1]
    unfold serveDirectoryListing
    rw [hf]
    exact ⟨_, rfl⟩
  · intro hin hst
    rw [hE, hin, hst]; rfl
  · intro hdir hw hst
    have h := (filepath.IsAbs_iff dir).1 hdir
    have hp : path = filepath.Clean (dir ++ '/' :: urlPath) := by
      have := resolve_of_rooted env dir urlPath h
      rw [hres] at this
      exact Option.some.inj this
    have hin : isPathInDir env path dir = true := by
      rw [hp, isPathInDir_resolved env dir urlPath h, strings.HasPrefix_iff, ← hp]
      exact prefix_of_isWithin _ _ hw
    rw [hE, hin, hst]; rfl
  · have hj : filepath.Join ["/srv/data".toList, "/../../etc/passwd".toList]
        = "/etc/passwd".toList := by decide
    have hin : isPathInDir env "/etc/passwd".toList "/srv/data".toList = false := by
      rw [isPathInDir_of_rooted env "/etc/passwd".toList "/srv/data".toList rfl rfl]
      decide
    have hr : filepath.Abs env.getwd
        (filepath.Join ["/srv/data".toList, "/../../etc/passwd".toList])
        = some "/etc/passwd".toList := by
      rw [hj, filepath.Abs_of_rooted env.getwd "/etc/passwd".toList rfl]
      decide
    rw [fileServerWithUI_of_resolved env _ _ _ hr, hin]
    rfl
  · intro hst
    have hj : filepath.Join ["/srv/data".toList, "/missing.txt".toList]
        = "/srv/data/missing.txt".toList := by decide
    have hin : isPathInDir env "/srv/data/missing.txt".toList "/srv/data".toList = true := by
      rw [isPathInDir_of_rooted env "/srv/data/missing.txt".toList "/srv/data".toList rfl rfl]
      decide
    have hr : filepath.Abs env.getwd
        (filepath.Join ["/srv/data".toList, "/missing.txt".toList])
        = some "/srv/data/missing.txt".toList := by
      rw [hj, filepath.Abs_of_rooted env.getwd "/srv/data/missing.txt".toList rfl]
      decide
    rw [fileServerWithUI_of_resolved env _ _ _ hr, hin, hst]
    rfl

theorem C2_dispatch_order_witness :
    fileServerWithUI sampleEnv "/srv/data".toList "/img/missing.png".toList
      = .error "Not found" StatusNotFound :=
  (C2_dispatch_order sampleEnv "/srv/data".toList "/img/missing.png".toList
    "/srv/data/img/missing.png".toList (by decide)).2.2.2.2.2.1
    (by decide) (by decide) (by decide)

/-- C4 (defect of the code). The parent row is left out only when the request
path is literally `/`. The request paths `//`, `/.`, `/img/..` and the empty
path all resolve to the root `/srv/data` itself, yet each listing carries a
parent row, while `/` carries none. -/
theorem C4_parent_row_at_root :
    filepath.Join ["/srv/data".toList, "//".toList] = "/srv/data".toList
    ∧ (fileServerWithUI sampleEnv "/srv/data".toList "//".toList).parentLinks = ["/".toList]
    ∧ filepath.Join ["/srv/data".toList, "/.".toList] = "/srv/data".toList
    ∧ (fileServerWithUI sampleEnv "/srv/data".toList "/.".toList).parentLinks = ["/".toList]
    ∧ filepath.Join ["/srv/data".toList, "/img/..".toList] = "/srv/data".toList
    ∧ (fileServerWithUI sampleEnv "/srv/data".toList "/img/..".toList).parentLinks
        = ["/img".toList]
    ∧ filepath.Join ["/srv/data".toList, []] = "/srv/data".toList
    ∧ (fileServerWithUI sampleEnv "/srv/data".toList []).parentLinks = [['.']]
    ∧ (fileServerWithUI sampleEnv "/srv/data".toList "/".toList).parentLinks = []
    ∧ fileServerWithUI sampleEnv "/srv/data".toList "//".toList
        = .page [.header "//".toList "/srv/data".toList,
            .parentRow "/".toList,
            .entryRow "/img".toList true "img/".toList "-".toList "2024-03-07 09:05:00".toList,
            .entryRow "/notes.txt".toList false "notes.txt".toList "120 B".toList
              "2024-03-07 09:05:00".toList,
            .footer] := by
  decide

/-- C5 (defect of the code). The link of the parent row is
`filepath.Dir` of the request path, which for a path with a trailing slash is
the path itself without the slash: for `/img/` the link is `/img`, which
resolves to the listed directory `/srv/data/img` again and not to its parent;
likewise `Dir "/a/b/"` is `/a/b` while `Dir "/a/b"` is `/a`. -/
theorem C5_parent_link_trailing_slash :
    filepath.Join ["/srv/data".toList, "/img/".toList] = "/srv/data/img".toList
    ∧ (fileServerWithUI sampleEnv "/srv/data".toList "/img/".toList).parentLinks
        = ["/img".toList]
    ∧ filepath.Join ["/srv/data".toList, "/img".toList] = "/srv/data/img".toList
    ∧ (fileServerWithUI sampleEnv "/srv/data".toList "/img".toList).parentLinks
        = ["/".toList]
    ∧ filepath.Dir "/a/b/".toList = "/a/b".toList
    ∧ filepath.Dir "/a/b".toList = "/a".toList := by
  decide

/-- C7 (defect of the code). The test for the home directory compares raw
strings: with home `/home/u` the sibling path `/home/u2/x` is taken to lie
under the home directory and is displayed as `~/../u2/x` instead of being
returned unchanged. -/
theorem C7_sibling_of_home :
    sampleEnv.userHomeDir = some "/home/u".toList
    ∧ isWithin "/home/u2/x".toList "/home/u".toList = false
    ∧ getRelativePath sampleEnv "/home/u2/x".toList = "~/../u2/x".toList
    ∧ getRelativePath sampleEnv "/home/u".toList = "~/".toList
    ∧ getRelativePath sampleEnv "/home/u/a/b".toList = "~/a/b".toList
    ∧ getRelativePath sampleEnv "/srv/data".toList = "/srv/data".toList := by
  decide

/-! ## The listing -/

theorem listEntry_eq (urlPath : Str) (w : List Chunk) (file : DirEntry) :
    listEntry urlPath w file = w ++ (entryRow? urlPath file).toList := by
  unfold listEntry entryRow?
  cases hi : file.info with
  | none => simp
  | some info => cases hd : file.isDir <;> simp

theorem foldl_listEntry (urlPath : Str) (files : List DirEntry) (w : List Chunk) :
    files.foldl (listEntry urlPath) w = w ++ files.filterMap (entryRow? urlPath) := by
  induction files generalizing w with
  | nil => simp
  | cons f fs ih =>
    rw [List.foldl_cons, ih, listEntry_eq]
    cases h : entryRow? urlPath f <;> simp [List.filterMap_cons, h]

theorem rowShows_filterMap (urlPath : Str) (files : List DirEntry) :
    List.Forall₂ (RowShows urlPath) (files.filter (fun f => f.info.isSome))
      (files.filterMap (entryRow? urlPath)) := by
  induction files with
  | nil => exact List.Forall₂.nil
  | cons f fs ih =>
    cases hi : f.info with
    | none =>
      have h1 : entryRow? urlPath f = none := by simp [entryRow?, hi]
      simpa [List.filter_cons, List.filterMap_cons, hi, h1] using ih
    | some info =>
      have h1 : entryRow? urlPath f = some (.entryRow (filepath.Join [urlPath, f.name]) f.isDir
          (if f.isDir then f.name ++ ['/'] else f.name)
          (if f.isDir then ['-'] else formatFileSize info.size)
          info.modTime.Format) := by simp [entryRow?, hi]
      simp only [List.filter_cons, List.filterMap_cons, hi, h1, Option.isSome_some, if_true]
      exact List.Forall₂.cons ⟨info, hi, rfl⟩ ih

/-- C6. When the directory read succeeds, the page consists of the head, the
parent row exactly when the request path is not `/`, then one row for each
entry whose metadata read succeeded (none for the others) in the order of the
directory read, then the closing tags. A directory row shows the name with a
trailing `/` and the size `-`, a file row shows `formatFileSize` of its size;
when every metadata read succeeds there are as many entry rows as entries. -/
theorem C6_listing_rows (env : Env) (urlPath path baseDir : Str) (files : List DirEntry)
    (hread : env.readDir path = some files) :
    ∃ rows : List Chunk,
      serveDirectoryListing env urlPath path baseDir
        = .page (.header urlPath (getRelativePath env path)
            :: ((if urlPath ≠ ['/'] then [.parentRow (filepath.Dir urlPath)] else [])
              ++ rows ++ [.footer]))
      ∧ List.Forall₂ (RowShows urlPath) (files.filter (fun f => f.info.isSome)) rows
      ∧ rows.length = (files.filter (fun f => f.info.isSome)).length
      ∧ ((∀ f ∈ files, f.info.isSome = true) → rows.length = files.length) := by
  have hrows := rowShows_filterMap urlPath files
  refine ⟨files.filterMap (entryRow? urlPath), ?_, hrows, hrows.length_eq.symm, ?_⟩
  · unfold serveDirectoryListing
    rw [hread]
    simp only [foldl_listEntry]
    by_cases h : urlPath = ['/']
    · simp [h]
    · simp [h]
  · intro hall
    rw [← hrows.length_eq, List.filter_eq_self.2 hall]

theorem C6_listing_rows_witness :
    ∃ rows : List Chunk,
      serveDirectoryListing sampleEnv "/".toList "/srv/data".toList "/srv/data".toList
        = .page (.header "/".toList (getRelativePath sampleEnv "/srv/data".toList)
            :: ((if "/".toList ≠ ['/'] then [.parentRow (filepath.Dir "/".toList)] else [])
              ++ rows ++ [.footer]))
      ∧ List.Forall₂ (RowShows "/".toList)
          ([⟨"img".toList, true, some ⟨4096, sampleTime⟩⟩,
            ⟨"notes.txt".toList, false, some ⟨120, sampleTime⟩⟩].filter
              (fun f => f.info.isSome)) rows
      ∧ rows.length = ([(⟨"img".toList, true, some ⟨4096, sampleTime⟩⟩ : DirEntry),
            ⟨"notes.txt".toList, false, some ⟨120, sampleTime⟩⟩].filter
              (fun f => f.info.isSome)).length
      ∧ ((∀ f ∈ [(⟨"img".toList, true, some ⟨4096, sampleTime⟩⟩ : DirEntry),
            ⟨"notes.txt".toList, false, some ⟨120, sampleTime⟩⟩], f.info.isSome = true) →
          rows.length = [(⟨"img".toList, true, some ⟨4096, sampleTime⟩⟩ : DirEntry),
            ⟨"notes.txt".toList, false, some ⟨120, sampleTime⟩⟩].length) :=
  C6_listing_rows sampleEnv "/".toList "/srv/data".toList "/srv/data".toList
    [⟨"img".toList, true, some ⟨4096, sampleTime⟩⟩,
      ⟨"notes.txt".toList, false, some ⟨120, sampleTime⟩⟩] (by decide)

/-! ## Size formatting -/

theorem roundHalfEven_spec (num den : ℕ) (hden : 0 < den) :
    |((roundHalfEven num den : ℕ) : ℚ) - (num : ℚ) / den| ≤ 1 / 2
    ∧ (|((roundHalfEven num den : ℕ) : ℚ) - (num : ℚ) / den| = 1 / 2 →
        roundHalfEven num den % 2 = 0) := by
  have hd : (0 : ℚ) < den := by exact_mod_cast hden
  have hnum : (num : ℚ) = den * (num / den : ℕ) + (num % den : ℕ) := by
    exact_mod_cast (Nat.div_add_mod num den).symm
  have hr : num % den < den := Nat.mod_lt _ hden
  have hquot : (num : ℚ) / den = (num / den : ℕ) + ((num % den : ℕ) : ℚ) / den := by
    rw [div_eq_iff hd.ne']
    have h2 : ((num / den : ℕ) + ((num % den : ℕ) : ℚ) / den) * den
        = den * (num / den : ℕ) + (num % den : ℕ) := by
      field_simp
      ring
    rw [h2]
    exact hnum
  have hrq : ((num % den : ℕ) : ℚ) < den := by exact_mod_cast hr
  have hr0 : (0 : ℚ) ≤ ((num % den : ℕ) : ℚ) := Nat.cast_nonneg _
  unfold roundHalfEven
  simp only
  split_ifs with hup
  · have e : (((num / den + 1 : ℕ) : ℚ)) - (num : ℚ) / den
        = ((den : ℚ) - (num % den : ℕ)) / den := by
      rw [hquot]; push_cast; field_simp; ring
    have hge : (den : ℚ) ≤ 2 * ((num % den : ℕ) : ℚ) := by
      rcases hup with h | h
      · exact_mod_cast h.le
      · exact_mod_cast h.1.ge
    rw [e, abs_of_nonneg (div_nonneg (by linarith) hd.le)]
    constructor
    · rw [div_le_iff₀ hd]; linarith
    · intro htie
      rw [div_eq_iff hd.ne'] at htie
      have h2 : 2 * (num % den) = den := by
        have : (2 : ℚ) * ((num % den : ℕ) : ℚ) = den := by linarith
        exact_mod_cast this
      rcases hup with h | h
      · omega
      · omega
  · have e : (((num / den : ℕ) : ℚ)) - (num : ℚ) / den
        = -(((num % den : ℕ) : ℚ) / den) := by
      rw [hquot]; ring
    have hle : 2 * (num % den) ≤ den := by
      by_contra hc
      exact hup (Or.inl (by omega))
    have hleq : 2 * ((num % den : ℕ) : ℚ) ≤ den := by exact_mod_cast hle
    rw [e, abs_neg, abs_of_nonneg (div_nonneg hr0 hd.le)]
    constructor
    · rw [div_le_iff₀ hd]; linarith
    · intro htie
      rw [div_eq_iff hd.ne'] at htie
      have h2 : 2 * (num % den) = den := by
        have : (2 : ℚ) * ((num % den : ℕ) : ℚ) = den := by linarith
        exact_mod_cast this
      by_contra hodd
      exact hup (Or.inr ⟨h2, by omega⟩)

theorem hundredths_divPow2 (m j : ℕ) :
    (Float64.divPow2 ⟨m, 0⟩ (j + 1)).hundredths = roundHalfEven (m * 100) (2 ^ (j + 1)) := rfl

theorem nearest_divPow2 (m j : ℕ) :
    NearestHundredth ((m : ℚ) / 2 ^ (j + 1)) (Float64.divPow2 ⟨m, 0⟩ (j + 1)).hundredths := by
  rw [hundredths_divPow2]
  have h := roundHalfEven_spec (m * 100) (2 ^ (j + 1)) (by positivity)
  have e : ((m * 100 : ℕ) : ℚ) / ((2 ^ (j + 1) : ℕ) : ℚ) = 100 * ((m : ℚ) / 2 ^ (j + 1)) := by
    push_cast; ring
  rw [e] at h
  exact h

theorem Float64.ofNat_exact (m : ℕ) (h : m < 2 ^ 53) : Float64.ofNat m = ⟨m, 0⟩ := by
  unfold Float64.ofNat
  rw [if_pos h]

theorem zeroPad_two : ∀ k, k < 100 →
    zeroPad 2 k = [Nat.digitChar (k / 10), Nat.digitChar (k % 10)] := by
  decide

theorem fixed2_eq (h : ℕ) :
    fixed2 h = Nat.toDigits 10 (h / 100)
      ++ ['.', Nat.digitChar (h % 100 / 10), Nat.digitChar (h % 10)] := by
  unfold fixed2
  rw [zeroPad_two (h % 100) (Nat.mod_lt _ (by norm_num))]
  have : h % 100 % 10 = h % 10 := by omega
  rw [this]

theorem fmtF2_divPow2 (m j : ℕ) (hm : m < 2 ^ 53) :
    ∃ h, NearestHundredth ((m : ℚ) / 2 ^ (j + 1)) h
      ∧ fmtF2 ((Float64.ofNat m).divPow2 (j + 1)) = Nat.toDigits 10 (h / 100)
          ++ ['.', Nat.digitChar (h % 100 / 10), Nat.digitChar (h % 10)] := by
  rw [Float64.ofNat_exact m hm]
  exact ⟨_, nearest_divPow2 m j, fixed2_eq _⟩

/-- C3. For a byte count `0 ≤ n < 2^53`, `formatFileSize n` is the decimal
numeral of `n` followed by ` B` below 1024; otherwise it is `n / 1024`,
`n / 1024^2` or `n / 1024^3` (below `1024^2`, below `1024^3`, from `1024^3`
on) rounded to the nearest hundredth of the exact quotient, ties to even,
written with two decimal places and followed by ` KB`, ` MB` or ` GB`.
In particular 500, 2048, 5 MiB and 3 GiB give `500 B`, `2.00 KB`, `5.00 MB`
and `3.00 GB`. -/
theorem C3_formatFileSize (n : ℤ) (h0 : 0 ≤ n) (h53 : n < 2 ^ 53) :
    (n < 1024 → formatFileSize n = Nat.toDigits 10 n.toNat ++ " B".toList)
    ∧ (1024 ≤ n → n < 1024 ^ 2 →
        ∃ h, NearestHundredth ((n : ℚ) / 1024) h
          ∧ formatFileSize n = Nat.toDigits 10 (h / 100)
              ++ ['.', Nat.digitChar (h % 100 / 10), Nat.digitChar (h % 10)] ++ " KB".toList)
    ∧ (1024 ^ 2 ≤ n → n < 1024 ^ 3 →
        ∃ h, NearestHundredth ((n : ℚ) / 1024 ^ 2) h
          ∧ formatFileSize n = Nat.toDigits 10 (h / 100)
              ++ ['.', Nat.digitChar (h % 100 / 10), Nat.digitChar (h % 10)] ++ " MB".toList)
    ∧ (1024 ^ 3 ≤ n →
        ∃ h, NearestHundredth ((n : ℚ) / 1024 ^ 3) h
          ∧ formatFileSize n = Nat.toDigits 10 (h / 100)
              ++ ['.', Nat.digitChar (h % 100 / 10), Nat.digitChar (h % 10)] ++ " GB".toList)
    ∧ formatFileSize 500 = "500 B".toList
    ∧ formatFileSize 2048 = "2.00 KB".toList
    ∧ formatFileSize (5 * 1024 * 1024) = "5.00 MB".toList
    ∧ formatFileSize (3 * 1024 * 1024 * 1024) = "3.00 GB".toList := by
  lift n to ℕ using h0
  have hm : n < 2 ^ 53 := by exact_mod_cast h53
  refine ⟨?_, ?_, ?_, ?_, by decide, by decide, by decide, by decide⟩
  · intro h
    have hn : ¬ ((n : ℤ) < 0) := by omega
    simp [formatFileSize, fmtInt, h, hn]
  · intro h1 h2
    obtain ⟨h, hh, hf⟩ := fmtF2_divPow2 n 9 hm
    refine ⟨h, ?_, ?_⟩
    · have e : (((n : ℤ) : ℚ)) / 1024 = (n : ℚ) / 2 ^ (9 + 1) := by norm_num
      rw [e]; exact hh
    · have c1 : ¬ ((n : ℤ) < 1024) := by omega
      have c2 : (n : ℤ) < 1024 * 1024 := by omega
      unfold formatFileSize
      rw [if_neg c1, if_pos c2, Int.toNat_natCast, hf]
  · intro h1 h2
    obtain ⟨h, hh, hf⟩ := fmtF2_divPow2 n 19 hm
    refine ⟨h, ?_, ?_⟩
    · have e : (((n : ℤ) : ℚ)) / 1024 ^ 2 = (n : ℚ) / 2 ^ (19 + 1) := by norm_num
      rw [e]; exact hh
    · have c1 : ¬ ((n : ℤ) < 1024) := by omega
      have c2 : ¬ ((n : ℤ) < 1024 * 1024) := by omega
      have c3 : (n : ℤ) < 1024 * 1024 * 1024 := by omega
      unfold formatFileSize
      rw [if_neg c1, if_neg c2, if_pos c3, Int.toNat_natCast, hf]
  · intro h1
    obtain ⟨h, hh, hf⟩ := fmtF2_divPow2 n 29 hm
    refine ⟨h, ?_, ?_⟩
    · have e : (((n : ℤ) : ℚ)) / 1024 ^ 3 = (n : ℚ) / 2 ^ (29 + 1) := by norm_num
      rw [e]; exact hh
    · have c1 : ¬ ((n : ℤ) < 1024) := by omega
      have c2 : ¬ ((n : ℤ) < 1024 * 1024) := by omega
      have c3 : ¬ ((n : ℤ) < 1024 * 1024 * 1024) := by omega
      unfold formatFileSize
      rw [if_neg c1, if_neg c2, if_neg c3, Int.toNat_natCast, hf]

theorem C3_formatFileSize_witness :
    ∃ h, NearestHundredth (((1152 : ℤ) : ℚ) / 1024) h
      ∧ formatFileSize 1152 = Nat.toDigits 10 (h / 100)
          ++ ['.', Nat.digitChar (h % 100 / 10), Nat.digitChar (h % 10)] ++ " KB".toList :=
  (C3_formatFileSize 1152 (by decide) (by decide)).2.1 (by decide) (by decide)

/-! ## Links of the listing -/

theorem push_dotdot (o : List Str) : push o ['.', '.'] = o.dropLast := by
  simp [push]

theorem push_skip (o : List Str) (e : Str) (h : e = [] ∨ e = ['.']) : push o e = o := by
  simp [push, h]

theorem walk_of_noClimb (es o1 o : List Str) (h : noClimb o.length es = true) :
    walk (o1 ++ o) es = o1 ++ walk o es := by
  induction es generalizing o with
  | nil => rfl
  | cons e es ih =>
    rw [filepath.walk_cons, filepath.walk_cons]
    unfold noClimb at h
    by_cases h1 : e = [] ∨ e = ['.']
    · rw [if_pos h1] at h
      rw [push_skip _ _ h1, push_skip _ _ h1]
      exact ih o h
    · rw [if_neg h1] at h
      by_cases h2 : e = ['.', '.']
      · rw [if_pos h2] at h
        simp only [Bool.and_eq_true, decide_eq_true_eq] at h
        have hne : o ≠ [] := by
          intro ho
          exact h.1 (by simp [ho])
        subst h2
        rw [push_dotdot, push_dotdot, List.dropLast_append_of_ne_nil _ hne]
        refine ih o.dropLast ?_
        rw [List.length_dropLast]
        exact h.2
      · rw [if_neg h2] at h
        have hp : ∀ o : List Str, push o e = o ++ [e] := fun o => by simp [push, h1, h2]
        rw [hp, hp, List.append_assoc]
        refine ih (o ++ [e]) ?_
        rw [List.length_append]
        exact h

theorem cleanStep_unrooted (st : filepath.lazybuf) (e : Str) (hinv : BufInv st)
    (he : '/' ∉ e) :
    BufInv (filepath.cleanStep false st e)
    ∧ ∀ o, walk o (filepath.cleanStep false st e).elems = push (walk o st.elems) e := by
  obtain ⟨names, hn, hel⟩ := hinv
  have hlen : st.elems.length = st.dotdot + names.length := by
    rw [hel, List.length_append, List.length_replicate]
  unfold filepath.cleanStep
  by_cases h1 : e = []
  · rw [if_pos h1]
    exact ⟨⟨names, hn, hel⟩, fun o => (push_skip _ _ (Or.inl h1)).symm⟩
  rw [if_neg h1]
  by_cases h2 : e = ['.']
  · rw [if_pos h2]
    exact ⟨⟨names, hn, hel⟩, fun o => (push_skip _ _ (Or.inr h2)).symm⟩
  rw [if_neg h2]
  by_cases h3 : e = ['.', '.']
  · rw [if_pos h3]
    subst h3
    by_cases h4 : st.elems.length > st.dotdot
    · rw [if_pos h4]
      rcases List.eq_nil_or_concat names with hnil | ⟨ns, x, hx⟩
      · rw [hnil] at hlen; simp at hlen; omega
      · rw [List.concat_eq_append] at hx
        have hel2 : st.elems = (List.replicate st.dotdot ['.', '.'] ++ ns) ++ [x] := by
          rw [hel, hx, List.append_assoc]
        have hxn : IsName x := hn x (by simp [hx])
        refine ⟨⟨ns, fun y hy => hn y (by simp [hx, hy]), ?_⟩, fun o => ?_⟩
        · show st.elems.dropLast = _
          rw [hel2, List.dropLast_concat]
        · show walk o st.elems.dropLast = _
          rw [hel2, List.dropLast_concat,
            filepath.walk_append o (List.replicate st.dotdot ['.', '.'] ++ ns) [x],
            filepath.walk_cons, filepath.walk_nil, filepath.push_name _ _ hxn, push_dotdot,
            List.dropLast_concat]
    · rw [if_neg h4]
      have hnil : names = [] := by
        cases names with
        | nil => rfl
        | cons a as => simp at hlen; omega
      simp only [Bool.not_false, if_true]
      refine ⟨⟨[], by simp, ?_⟩, fun o => ?_⟩
      · show st.elems ++ [['.', '.']] = List.replicate (st.elems.length + 1) ['.', '.'] ++ []
        rw [hnil] at hel hlen
        simp only [List.append_nil, List.length_nil, Nat.add_zero] at hel hlen
        rw [hlen, List.replicate_succ', List.append_nil, ← hel]
      · show walk o (st.elems ++ [['.', '.']]) = _
        rw [filepath.walk_append, filepath.walk_cons, filepath.walk_nil]
  · rw [if_neg h3]
    have hname : IsName e := ⟨h1, h2, h3, he⟩
    refine ⟨⟨names ++ [e], ?_, ?_⟩, fun o => ?_⟩
    · intro y hy
      rcases List.mem_append.1 hy with hy | hy
      · exact hn y hy
      · simp only [List.mem_singleton] at hy
        rw [hy]; exact hname
    · show st.elems ++ [e] = _
      rw [hel, List.append_assoc]
    · show walk o (st.elems ++ [e]) = _
      rw [filepath.walk_append, filepath.walk_cons, filepath.walk_nil]

theorem foldl_cleanStep_unrooted (es : List Str) (st : filepath.lazybuf) (hinv : BufInv st)
    (hes : ∀ e ∈ es, '/' ∉ e) :
    BufInv (es.foldl (filepath.cleanStep false) st)
    ∧ ∀ o, walk o (es.foldl (filepath.cleanStep false) st).elems = walk (walk o st.elems) es := by
  induction es generalizing st with
  | nil => exact ⟨hinv, fun o => rfl⟩
  | cons e es ih =>
    obtain ⟨h1, h2⟩ := cleanStep_unrooted st e hinv (hes e (by simp))
    obtain ⟨h3, h4⟩ := ih (filepath.cleanStep false st e) h1 (fun x hx => hes x (by simp [hx]))
    refine ⟨h3, fun o => ?_⟩
    rw [List.foldl_cons, h4, h2, filepath.walk_cons]

theorem BufInv_noSep (st : filepath.lazybuf) (hinv : BufInv st) : ∀ e ∈ st.elems, '/' ∉ e := by
  obtain ⟨names, hn, hel⟩ := hinv
  intro e he
  rw [hel] at he
  rcases List.mem_append.1 he with he | he
  · rw [List.eq_of_mem_replicate he]; decide
  · exact (hn e he).2.2.2

theorem Join_concat_ne_nil (es : List Str) (e sep : Str) (he : e ≠ []) :
    strings.Join (es ++ [e]) sep ≠ [] := by
  cases es with
  | nil => exact he
  | cons a as =>
    rw [strings.Join_concat _ _ _ (by simp)]
    simp [he]

theorem walk_SplitSep_rooted_form (ns o : List Str) (h : ∀ e ∈ ns, IsName e) :
    walk o (strings.SplitSep ('/' :: strings.Join ns ['/'])) = o ++ ns := by
  rw [strings.SplitSep_cons_sep, filepath.walk_cons, push_skip _ _ (Or.inl rfl)]
  cases ns with
  | nil => simp [strings.Join, strings.SplitSep, walk, push]
  | cons a as =>
    rw [strings.SplitSep_Join _ (by simp) (fun e he => (h e he).2.2.2),
      filepath.walk_names _ _ h]

/-- The cleaned join of an absolute root and a request path, in terms of the
buffer. -/
theorem Clean_join_buf (dir X : Str) (h : dir.head? = some '/') :
    filepath.Clean (dir ++ '/' :: X)
      = '/' :: strings.Join (walk (walk [] (strings.SplitSep dir)) (strings.SplitSep X)) ['/'] := by
  rw [filepath.Clean_of_rooted _ (head_append_of_rooted _ _ h), strings.SplitSep_append_sep,
    filepath.walk_append]

theorem Join_Clean_name (oD : List Str) (n : Str) (hD : ∀ e ∈ oD, IsName e) (hn : IsName n) :
    filepath.Join ['/' :: strings.Join oD ['/'], n]
      = '/' :: strings.Join (oD ++ [n]) ['/'] := by
  rw [Join_of_rooted ('/' :: strings.Join oD ['/']) n rfl,
    Clean_join_buf ('/' :: strings.Join oD ['/']) n rfl, walk_SplitSep_rooted_form _ _ hD,
    strings.SplitSep_noSep n hn.2.2.2, filepath.walk_cons, filepath.walk_nil,
    filepath.push_name _ _ hn]
  rfl

theorem Clean_of_unrooted (path : Str) (h : path.head? ≠ some '/') :
    filepath.Clean path
      = filepath.lazybuf.string false
          ((strings.SplitSep path).foldl (filepath.cleanStep false) ⟨[], 0⟩) := by
  unfold filepath.Clean
  have : (path.head? == some '/') = false := by
    simpa using h
  simp only [this]

theorem walk_Clean_unrooted (X : Str) (es : List Str) (n : Str) (o : List Str)
    (hX : X.head? ≠ some '/') (hs : strings.SplitSep X = es ++ [n])
    (hes : ∀ e ∈ es, '/' ∉ e) (hn : IsName n) :
    walk o (strings.SplitSep (filepath.Clean X)) = walk o es ++ [n] := by
  obtain ⟨hinv, hwalk⟩ := foldl_cleanStep_unrooted es ⟨[], 0⟩ ⟨[], by simp, rfl⟩ hes
  obtain ⟨hinv2, hwalk2⟩ := cleanStep_unrooted _ n hinv hn.2.2.2
  have hstep : filepath.cleanStep false (es.foldl (filepath.cleanStep false) ⟨[], 0⟩) n
      = ⟨(es.foldl (filepath.cleanStep false) ⟨[], 0⟩).elems ++ [n],
          (es.foldl (filepath.cleanStep false) ⟨[], 0⟩).dotdot⟩ := by
    unfold filepath.cleanStep
    rw [if_neg hn.1, if_neg hn.2.1, if_neg hn.2.2.1]
  rw [Clean_of_unrooted X hX, hs, List.foldl_append, List.foldl_cons, List.foldl_nil]
  unfold filepath.lazybuf.string
  simp only [Bool.false_eq_true, if_false, List.nil_append]
  rw [hstep]
  simp only
  rw [if_neg (Join_concat_ne_nil _ _ _ hn.1),
    strings.SplitSep_Join _ (by simp) (by
      intro e he
      rcases List.mem_append.1 he with he | he
      · exact BufInv_noSep _ hinv e he
      · simp only [List.mem_singleton] at he
        rw [he]; exact hn.2.2.2),
    filepath.walk_append, filepath.walk_cons, filepath.walk_nil, filepath.push_name _ _ hn,
    hwalk o]
  rfl

/-- The buffer after the link of a row, for a relative request path. -/
theorem walk_link_relative (urlPath name : Str) (o : List Str)
    (hp : urlPath.head? ≠ some '/') (hn : IsName name) :
    walk o (strings.SplitSep (filepath.Join [urlPath, name]))
      = walk o (strings.SplitSep urlPath) ++ [name] := by
  by_cases he : urlPath = []
  · subst he
    have hj : filepath.Join [[], name] = filepath.Clean name := by
      simp [filepath.Join, hn.1, strings.Join]
    have hX : name.head? ≠ some '/' := by
      intro h
      exact hn.2.2.2 (List.mem_of_mem_head? h)
    rw [hj, walk_Clean_unrooted name [] name o hX
      (by rw [strings.SplitSep_noSep name hn.2.2.2]; rfl) (by simp) hn]
    simp [strings.SplitSep, walk, push]
  · have hj : filepath.Join [urlPath, name] = filepath.Clean (urlPath ++ '/' :: name) := by
      unfold filepath.Join
      rw [if_pos he, strings.Join_pair]
      simp
    have hX : (urlPath ++ '/' :: name).head? ≠ some '/' := by
      cases urlPath with
      | nil => exact absurd rfl he
      | cons c cs => simpa using hp
    rw [hj, walk_Clean_unrooted (urlPath ++ '/' :: name) (strings.SplitSep urlPath) name o hX
      (by rw [strings.SplitSep_append_sep, strings.SplitSep_noSep name hn.2.2.2])
      (fun e h => strings.noSep_of_mem_SplitSep urlPath e h) hn]

/-- The buffer after the link of a row, for a rooted request path. -/
theorem walk_link_rooted (urlPath name : Str) (o : List Str)
    (hp : urlPath.head? = some '/') (hn : IsName name) :
    walk o (strings.SplitSep (filepath.Join [urlPath, name]))
      = o ++ (walk [] (strings.SplitSep urlPath) ++ [name]) := by
  rw [Join_of_rooted _ _ hp, filepath.Clean_of_rooted _ (head_append_of_rooted _ _ hp),
    strings.SplitSep_append_sep, strings.SplitSep_noSep name hn.2.2.2, filepath.walk_append,
    filepath.walk_cons, filepath.walk_nil, filepath.push_name _ _ hn]
  refine walk_SplitSep_rooted_form _ o ?_
  intro e he
  rcases List.mem_append.1 he with he | he
  · exact filepath.walk_SplitSep_isName urlPath e he
  · simp only [List.mem_singleton] at he
    rw [he]; exact hn

/-- C8, as stated, fails. With root `/srv/data` the request path `/../data`
passes the containment check and resolves to the root, whose listing shows the
child `img` with the link `Join("/../data", "img") = "/data/img"`; requested
again, that link resolves to `/srv/data/data/img`, not to the child
`/srv/data/img`, and the answer is 404. -/
theorem C8_link_misses_child :
    filepath.IsAbs "/srv/data".toList = true
    ∧ IsName "img".toList
    ∧ filepath.Abs sampleEnv.getwd (filepath.Join ["/srv/data".toList, "/../data".toList])
        = some "/srv/data".toList
    ∧ isPathInDir sampleEnv "/srv/data".toList "/srv/data".toList = true
    ∧ fileServerWithUI sampleEnv "/srv/data".toList "/../data".toList
        = .page [.header "/../data".toList "/srv/data".toList,
            .parentRow "/".toList,
            .entryRow "/data/img".toList true "img/".toList "-".toList
              "2024-03-07 09:05:00".toList,
            .entryRow "/data/notes.txt".toList false "notes.txt".toList "120 B".toList
              "2024-03-07 09:05:00".toList,
            .footer]
    ∧ filepath.Join ["/../data".toList, "img".toList] = "/data/img".toList
    ∧ filepath.Abs sampleEnv.getwd
        (filepath.Join ["/srv/data".toList, filepath.Join ["/../data".toList, "img".toList]])
        = some "/srv/data/data/img".toList
    ∧ filepath.Join ["/srv/data".toList, "img".toList] = "/srv/data/img".toList
    ∧ ¬ (filepath.Abs sampleEnv.getwd
        (filepath.Join ["/srv/data".toList, filepath.Join ["/../data".toList, "img".toList]])
        = some (filepath.Join ["/srv/data".toList, "img".toList]))
    ∧ fileServerWithUI sampleEnv "/srv/data".toList "/data/img".toList
        = .error "Not found" StatusNotFound := by
  decide

/-- C8, amended. For an absolute root, a request path that passes the
containment check and resolves to `D`, and a child name that is a single
ordinary path element, the link `Join(urlPath, name)` of the row, requested
again, resolves and passes the containment check, so the answer is never 403;
and it resolves to `Join(D, name)`, the child itself, whenever the request
path is relative or none of its `..` elements climbs above its leading
separator (in particular when it has no `..` element). -/
theorem C8_listing_link (env : Env) (dir urlPath name D : Str)
    (hdir : filepath.IsAbs dir = true) (hname : IsName name)
    (hres : filepath.Abs env.getwd (filepath.Join [dir, urlPath]) = some D)
    (hin : isPathInDir env D dir = true) :
    ∃ T, filepath.Abs env.getwd (filepath.Join [dir, filepath.Join [urlPath, name]]) = some T
      ∧ isPathInDir env T dir = true
      ∧ (∀ msg, fileServerWithUI env dir (filepath.Join [urlPath, name])
          ≠ .error msg StatusForbidden)
      ∧ ((urlPath.head? ≠ some '/' ∨ noClimb 0 (strings.SplitSep urlPath) = true) →
          T = filepath.Join [D, name]) := by
  have h := (filepath.IsAbs_iff dir).1 hdir
  have hT := resolve_of_rooted env dir (filepath.Join [urlPath, name]) h
  have hD : D = filepath.Clean (dir ++ '/' :: urlPath) := by
    have := resolve_of_rooted env dir urlPath h
    rw [hres] at this
    exact Option.some.inj this
  have hDbuf := Clean_join_buf dir urlPath h
  have hTbuf := Clean_join_buf dir (filepath.Join [urlPath, name]) h
  have hoR : ∀ e ∈ walk [] (strings.SplitSep dir), IsName e := filepath.walk_SplitSep_isName dir
  have hoD : ∀ e ∈ walk (walk [] (strings.SplitSep dir)) (strings.SplitSep urlPath), IsName e :=
    filepath.walk_isName _ _ hoR (fun e he => strings.noSep_of_mem_SplitSep urlPath e he)
  have hin2 : strings.Join (walk [] (strings.SplitSep dir)) ['/']
      <+: strings.Join (walk (walk [] (strings.SplitSep dir)) (strings.SplitSep urlPath)) ['/'] := by
    rw [hD, isPathInDir_resolved env dir urlPath h, strings.HasPrefix_iff, hDbuf,
      filepath.Clean_of_rooted _ h, List.cons_prefix_cons] at hin
    exact hin.2
  have hcont : ∀ buf : List Str,
      strings.Join (walk [] (strings.SplitSep dir)) ['/'] <+: strings.Join buf ['/'] →
      walk (walk [] (strings.SplitSep dir)) (strings.SplitSep (filepath.Join [urlPath, name]))
        = buf →
      isPathInDir env (filepath.Clean (dir ++ '/' :: filepath.Join [urlPath, name])) dir
        = true := by
    intro buf hpre hbuf
    rw [isPathInDir_resolved env dir _ h, strings.HasPrefix_iff, hTbuf,
      filepath.Clean_of_rooted _ h, List.cons_prefix_cons, hbuf]
    exact ⟨rfl, hpre⟩
  by_cases hp : urlPath.head? = some '/'
  · have hw := walk_link_rooted urlPath name (walk [] (strings.SplitSep dir)) hp hname
    have hc := hcont _ (Join_prefix_append _ _ _) hw
    refine ⟨_, hT, hc, not_forbidden_of_contained env dir _ _ hT hc, ?_⟩
    intro hcl
    rcases hcl with hcl | hcl
    · exact absurd hp hcl
    · have hsplit := walk_of_noClimb (strings.SplitSep urlPath)
        (walk [] (strings.SplitSep dir)) [] hcl
      rw [List.append_nil] at hsplit
      rw [hD, hDbuf, Join_Clean_name _ _ hoD hname, hTbuf, hw, hsplit, List.append_assoc]
  · have hw := walk_link_relative urlPath name (walk [] (strings.SplitSep dir)) hp hname
    have hc := hcont _ (hin2.trans (Join_prefix_append _ _ _)) hw
    refine ⟨_, hT, hc, not_forbidden_of_contained env dir _ _ hT hc, ?_⟩
    intro _
    rw [hD, hDbuf, Join_Clean_name _ _ hoD hname, hTbuf, hw]

theorem C8_listing_link_witness :
    ∃ T, filepath.Abs sampleEnv.getwd
        (filepath.Join ["/srv/data".toList, filepath.Join ["/img/../".toList, "img".toList]])
        = some T
      ∧ isPathInDir sampleEnv T "/srv/data".toList = true
      ∧ (∀ msg, fileServerWithUI sampleEnv "/srv/data".toList
          (filepath.Join ["/img/../".toList, "img".toList]) ≠ .error msg StatusForbidden)
      ∧ (("/img/../".toList.head? ≠ some '/'
            ∨ noClimb 0 (strings.SplitSep "/img/../".toList) = true) →
          T = filepath.Join ["/srv/data".toList, "img".toList]) :=
  C8_listing_link sampleEnv "/srv/data".toList "/img/../".toList "img".toList
    "/srv/data".toList (by decide) (by decide) (by decide) (by decide)

end FileServer
